import Mathlib

/-!
Verification of the combinatorial region-obfuscation pipeline in
`backend/segmenter.py` (classes `Segmenter` and `VideoSegmenter`).

The embedding models, directly from the source:
  * the decimal rendering used by Python f-strings (`f"{j}blur"`),
  * the combination-key naming scheme of `_generate_combinations`,
  * the pixelation compositor (PIL nearest-neighbour downsample/upsample,
    masked copy-back),
  * the per-combination compositing loop over binary digits of `i`,
  * the metadata files written by `_save_metadata`,
  * the codec fallback loop of `write_video`,
  * the per-frame combination filing of `VideoSegmenter._generate_combinations`,
  * the interactive session state touched by the `on_reset` handlers, and
  * the exception flow of `process_image` / `main`.

Pixels are abstract values; images are total functions from coordinates,
masks are boolean functions, and filesystem / codec effects are made
explicit as data.
-/

/-! ## Decimal rendering of naturals (Python `str(j)` / f-string formatting) -/

/-- The character for a single decimal digit, as Python renders it. -/
def digitChar (d : Nat) : Char :=
  if d = 0 then '0' else if d = 1 then '1' else if d = 2 then '2'
  else if d = 3 then '3' else if d = 4 then '4' else if d = 5 then '5'
  else if d = 6 then '6' else if d = 7 then '7' else if d = 8 then '8' else '9'

/-- Decimal rendering of a natural number as a list of characters, most
significant digit first: the character sequence of Python `str (n)`. -/
def natChars (n : Nat) : List Char :=
  if n = 0 then ['0'] else ((Nat.digits 10 n).reverse.map digitChar)

theorem digitChar_ne_underscore (d : Nat) : digitChar d ≠ '_' := by
  intro h
  unfold digitChar at h
  split_ifs at h <;> exact absurd h (by decide)

theorem underscore_not_mem_natChars (n : Nat) : '_' ∉ natChars n := by
  unfold natChars
  split
  · decide
  · intro hmem
    rcases List.mem_map.mp hmem with ⟨d, _, hd⟩
    exact digitChar_ne_underscore d hd

/-- The numeric value of a decimal digit character. -/
def digitVal (c : Char) : Nat := c.toNat - 48

theorem digitVal_digitChar {d : Nat} (h : d < 10) : digitVal (digitChar d) = d := by
  interval_cases d <;> decide

theorem digitChar_injOn {d₁ d₂ : Nat} (h₁ : d₁ < 10) (h₂ : d₂ < 10)
    (h : digitChar d₁ = digitChar d₂) : d₁ = d₂ := by
  rw [← digitVal_digitChar h₁, ← digitVal_digitChar h₂, h]

theorem map_digitChar_inj {l₁ l₂ : List Nat} (h₁ : ∀ d ∈ l₁, d < 10)
    (h₂ : ∀ d ∈ l₂, d < 10) (h : l₁.map digitChar = l₂.map digitChar) :
    l₁ = l₂ := by
  induction l₁ generalizing l₂ with
  | nil => cases l₂ <;> simp_all
  | cons a as ih =>
    cases l₂ with
    | nil => simp_all
    | cons b bs =>
      simp only [List.map_cons, List.cons.injEq] at h
      have ha : a = b := digitChar_injOn (h₁ a (by simp)) (h₂ b (by simp)) h.1
      have hb : as = bs :=
        ih (fun d hd => h₁ d (by simp [hd])) (fun d hd => h₂ d (by simp [hd])) h.2
      simp [ha, hb]

theorem digits_reverse_lt_ten {a : Nat} : ∀ d ∈ (Nat.digits 10 a).reverse, d < 10 :=
  fun d hd => Nat.digits_lt_base (by norm_num) (List.mem_reverse.mp hd)

theorem natChars_ne_zero_chars {a : Nat} (ha : a ≠ 0)
    (h : (Nat.digits 10 a).reverse.map digitChar = ['0']) : False := by
  have h0 : (['0'] : List Char) = [0].map digitChar := rfl
  rw [h0] at h
  have hdig : (Nat.digits 10 a).reverse = [0] :=
    map_digitChar_inj digits_reverse_lt_ten (by decide) h
  have hrev : Nat.digits 10 a = [0] := by
    have := congrArg List.reverse hdig
    simpa using this
  have := Nat.ofDigits_digits 10 a
  rw [hrev] at this
  simp [Nat.ofDigits] at this
  exact ha this.symm

theorem natChars_injective {m n : Nat} (h : natChars m = natChars n) : m = n := by
  unfold natChars at h
  by_cases hm : m = 0 <;> by_cases hn : n = 0
  · omega
  · rw [if_pos hm, if_neg hn] at h
    exact absurd h.symm (fun h' => natChars_ne_zero_chars hn h')
  · rw [if_neg hm, if_pos hn] at h
    exact absurd h (fun h' => natChars_ne_zero_chars hm h')
  · rw [if_neg hm, if_neg hn] at h
    have hdig : (Nat.digits 10 m).reverse = (Nat.digits 10 n).reverse :=
      map_digitChar_inj digits_reverse_lt_ten digits_reverse_lt_ten h
    have hd' : Nat.digits 10 m = Nat.digits 10 n := by
      have := congrArg List.reverse hdig
      simpa using this
    have hm' := Nat.ofDigits_digits 10 m
    have hn' := Nat.ofDigits_digits 10 n
    rw [← hm', ← hn', hd']

/-! ## Combination-key naming (`Segmenter._generate_combinations`)

For bitmask `i` over `n` accepted masks the source builds
`binary = format(i, f"0{n}b")` and, for each position `j`, the part
`f"{j}blur"` when `binary[j] == '1'` and `f"{j}"` otherwise, joined with
`"_"`.  Digit `j` of the `n`-digit binary rendering of `i` (most
significant first) is bit `n - 1 - j` of `i`. -/

def blurChars : List Char := ['b', 'l', 'u', 'r']

/-- The part for bit position `j`: `str(j)` plus `"blur"` iff the bit is set. -/
def partChars (j : Nat) (b : Bool) : List Char :=
  natChars j ++ (if b then blurChars else [])

/-- The parts of the combination key for bitmask `i` over `n` masks, in
digit order of `format(i, f"0{n}b")`. -/
def keyParts (n i : Nat) : List (List Char) :=
  (List.range n).map (fun j => partChars j (i.testBit (n - 1 - j)))

/-- `"_".join(parts)` at the character level. -/
def joinParts : List (List Char) → List Char
  | [] => []
  | [p] => p
  | p :: q :: rest => p ++ '_' :: joinParts (q :: rest)

/-- The combination key of bitmask `i` over `n` accepted masks. -/
def keyChars (n i : Nat) : List Char := joinParts (keyParts n i)

/-- The combination key as a string: the artifact's base name. -/
def combinationName (n i : Nat) : String := String.mk (keyChars n i)

/-- The list of image-mode artifact base names produced by the enumerator,
in generation order `i = 0, 1, ..., 2^n - 1`. -/
def producedNames (n : Nat) : List String :=
  (List.range (2 ^ n)).map (combinationName n)

/-- Splitting a character list at `'_'` (inverse of `joinParts`). -/
def splitParts : List Char → List (List Char)
  | [] => [[]]
  | c :: cs =>
    match splitParts cs with
    | [] => [[]]
    | p :: ps => if c = '_' then [] :: p :: ps else (c :: p) :: ps

theorem splitParts_ne_nil (l : List Char) : splitParts l ≠ [] := by
  cases l with
  | nil => simp [splitParts]
  | cons c cs =>
    rw [splitParts]
    cases hs : splitParts cs with
    | nil => simp
    | cons p ps =>
      show ¬(if c = '_' then [] :: p :: ps else (c :: p) :: ps) = []
      split <;> simp

theorem splitParts_no_underscore {p : List Char} (h : '_' ∉ p) :
    splitParts p = [p] := by
  induction p with
  | nil => rfl
  | cons c cs ih =>
    have hc : c ≠ '_' := fun hc => h (by simp [hc])
    have hcs : '_' ∉ cs := fun hm => h (by simp [hm])
    simp [splitParts, ih hcs, hc]

theorem splitParts_append_sep {p : List Char} (t : List Char) (h : '_' ∉ p) :
    splitParts (p ++ '_' :: t) = p :: splitParts t := by
  induction p with
  | nil =>
    rw [List.nil_append, splitParts]
    cases hs : splitParts t with
    | nil => exact absurd hs (splitParts_ne_nil t)
    | cons q qs => simp
  | cons c cs ih =>
    have hc : c ≠ '_' := fun hc => h (by simp [hc])
    have hcs : '_' ∉ cs := fun hm => h (by simp [hm])
    rw [List.cons_append, splitParts, ih hcs]
    simp [hc]

theorem splitParts_joinParts :
    ∀ ps : List (List Char), ps ≠ [] → (∀ p ∈ ps, '_' ∉ p) →
      splitParts (joinParts ps) = ps := by
  intro ps
  induction ps with
  | nil => intro h; exact absurd rfl h
  | cons p qs ih =>
    intro _ hfree
    cases qs with
    | nil =>
      simp only [joinParts]
      exact splitParts_no_underscore (hfree p (by simp))
    | cons q rest =>
      simp only [joinParts]
      rw [splitParts_append_sep _ (hfree p (by simp))]
      rw [ih (by simp) (fun r hr => hfree r (by simp [hr]))]

theorem underscore_not_mem_partChars (j : Nat) (b : Bool) :
    '_' ∉ partChars j b := by
  intro h
  rcases List.mem_append.mp h with h' | h'
  · exact underscore_not_mem_natChars j h'
  · cases b
    · simp at h'
    · rw [if_pos rfl] at h'
      exact absurd h' (by decide)

theorem partChars_inj {j : Nat} {b₁ b₂ : Bool}
    (h : partChars j b₁ = partChars j b₂) : b₁ = b₂ := by
  have := congrArg List.length h
  cases b₁ <;> cases b₂ <;> simp_all [partChars, blurChars]

theorem keyChars_inj {n i₁ i₂ : Nat} (h₁ : i₁ < 2 ^ n) (h₂ : i₂ < 2 ^ n)
    (h : keyChars n i₁ = keyChars n i₂) : i₁ = i₂ := by
  cases n with
  | zero =>
    simp only [pow_zero, Nat.lt_one_iff] at h₁ h₂
    omega
  | succ m =>
    have hparts : keyParts (m + 1) i₁ = keyParts (m + 1) i₂ := by
      have e₁ : splitParts (joinParts (keyParts (m + 1) i₁)) = keyParts (m + 1) i₁ :=
        splitParts_joinParts _ (by simp [keyParts])
          (by
            intro p hp
            rcases List.mem_map.mp hp with ⟨j, _, hj⟩
            rw [← hj]; exact underscore_not_mem_partChars _ _)
      have e₂ : splitParts (joinParts (keyParts (m + 1) i₂)) = keyParts (m + 1) i₂ :=
        splitParts_joinParts _ (by simp [keyParts])
          (by
            intro p hp
            rcases List.mem_map.mp hp with ⟨j, _, hj⟩
            rw [← hj]; exact underscore_not_mem_partChars _ _)
      rw [← e₁, ← e₂]
      unfold keyChars at h
      rw [h]
    apply Nat.eq_of_testBit_eq
    intro t
    by_cases ht : t < m + 1
    · have hj : m + 1 - 1 - (m - t) = t := by omega
      have hget := congrArg (fun l => l[m - t]?) hparts
      simp only [keyParts, List.getElem?_map,
        List.getElem?_range (show m - t < m + 1 by omega), Option.map_some',
        Option.some.injEq, hj] at hget
      exact partChars_inj hget
    · have e₁ : i₁.testBit t = false :=
        Nat.testBit_eq_false_of_lt
          (lt_of_lt_of_le h₁ (Nat.pow_le_pow_right (by norm_num) (by omega)))
      have e₂ : i₂.testBit t = false :=
        Nat.testBit_eq_false_of_lt
          (lt_of_lt_of_le h₂ (Nat.pow_le_pow_right (by norm_num) (by omega)))
      rw [e₁, e₂]

theorem combinationName_inj {n i₁ i₂ : Nat} (h₁ : i₁ < 2 ^ n) (h₂ : i₂ < 2 ^ n)
    (h : combinationName n i₁ = combinationName n i₂) : i₁ = i₂ := by
  apply keyChars_inj h₁ h₂
  have := congrArg String.data h
  simpa [combinationName] using this

/-- C2: the enumerator produces exactly `2 ^ n` artifacts and their names
are pairwise distinct, so the name encoding is a bijection between
`[0, 2^n)` and the produced names. -/
theorem producedNames_card_and_nodup (n : Nat) :
    (producedNames n).length = 2 ^ n ∧ (producedNames n).Nodup := by
  constructor
  · simp [producedNames]
  · apply List.Nodup.map_on _ (List.nodup_range _)
    intro x hx y hy hxy
    exact combinationName_inj (List.mem_range.mp hx) (List.mem_range.mp hy) hxy

/-! ## Pixelation compositor (`Segmenter._generate_combinations`, lines 311-337)

The source downsamples the working image to
`(width // pixelation_factor, height // pixelation_factor)` with
`Image.NEAREST`, upsamples back to `(width, height)` with `Image.NEAREST`,
and copies the result into the working image where the mask is true
(`result_image[mask] = pixelated_array[mask]`).  PIL nearest-neighbour
resampling maps output pixel `i` of a resize from `src` to `dst` samples
to source pixel `floor ((i + 0.5) * src / dst)`. -/

/-- Source pixel index sampled for output pixel `i` of a nearest-neighbour
resize from width `src` to width `dst`. -/
def resizeIdx (src dst i : Nat) : Nat := (2 * i + 1) * src / (2 * dst)

/-- The source pixel of the original image that ends up at position `x`
after the downsample (to width `w`) / upsample (back to `W`) cycle. -/
def sampleIdx (W w x : Nat) : Nat := resizeIdx W w (resizeIdx w W x)

/-- The fully pixelated frame: downsample to `(W / k, H / k)` and
upsample back, both nearest-neighbour. -/
def pixelate {α : Type} (W H k : Nat) (img : Nat → Nat → α) : Nat → Nat → α :=
  fun x y => img (sampleIdx W (W / k) x) (sampleIdx H (H / k) y)

/-- One compositing step: masked pixels take the pixelated value, all
other pixels keep the working image's value. -/
def composite {α : Type} (W H k : Nat) (m : Nat → Nat → Bool)
    (img : Nat → Nat → α) : Nat → Nat → α :=
  fun x y => if m x y then pixelate W H k img x y else img x y

/-- Downsample indices are fixed by the up/down index round trip: the
centre of small pixel `q`, blown back up, lands on small pixel `q` again. -/
theorem resizeIdx_round {w W : Nat} (hw : 0 < w) (hW : w ≤ W) (q : Nat) :
    resizeIdx w W (resizeIdx W w q) = q := by
  have h0 : 0 < W := lt_of_lt_of_le hw hW
  unfold resizeIdx
  obtain ⟨D, hD⟩ : ∃ D, (2 * q + 1) * W / (2 * w) = D := ⟨_, rfl⟩
  obtain ⟨R, hRdef⟩ : ∃ R, (2 * q + 1) * W % (2 * w) = R := ⟨_, rfl⟩
  have hdm : 2 * w * D + R = (2 * q + 1) * W := by
    rw [← hD, ← hRdef]; exact Nat.div_add_mod _ _
  have hR : R < 2 * w := by rw [← hRdef]; exact Nat.mod_lt _ (by omega)
  have hkey : 2 * (w * D) + R = 2 * (q * W) + W := by
    have e1 : 2 * w * D = 2 * (w * D) := by ring
    have e2 : (2 * q + 1) * W = 2 * (q * W) + W := by ring
    rw [e1, e2] at hdm
    exact hdm
  have hpos : 0 < R ∨ w < W := by
    rcases Nat.lt_or_ge w W with hlt | hge
    · exact Or.inr hlt
    · have hEq : w = W := le_antisymm hW hge
      subst hEq
      left
      have hsplit : (2 * q + 1) * w = 2 * w * q + w := by ring
      have hRW : R = w := by
        rw [← hRdef, hsplit, Nat.mul_add_mod]
        exact Nat.mod_eq_of_lt (by omega)
      omega
  rw [hD]
  apply Nat.div_eq_of_lt_le
  · show q * (2 * W) ≤ (2 * D + 1) * w
    have e3 : q * (2 * W) = 2 * (q * W) := by ring
    have e4 : (2 * D + 1) * w = 2 * (w * D) + w := by ring
    rw [e3, e4]
    obtain ⟨P, hP⟩ : ∃ P, w * D = P := ⟨_, rfl⟩
    obtain ⟨Q, hQ⟩ : ∃ Q, q * W = Q := ⟨_, rfl⟩
    rw [hP, hQ]
    rw [hP, hQ] at hkey
    omega
  · show (2 * D + 1) * w < (q + 1) * (2 * W)
    have e5 : (q + 1) * (2 * W) = 2 * (q * W) + 2 * W := by ring
    have e4 : (2 * D + 1) * w = 2 * (w * D) + w := by ring
    rw [e5, e4]
    obtain ⟨P, hP⟩ : ∃ P, w * D = P := ⟨_, rfl⟩
    obtain ⟨Q, hQ⟩ : ∃ Q, q * W = Q := ⟨_, rfl⟩
    rw [hP, hQ]
    rw [hP, hQ] at hkey
    omega

theorem sampleIdx_idem {w W : Nat} (hw : 0 < w) (hW : w ≤ W) (x : Nat) :
    sampleIdx W w (sampleIdx W w x) = sampleIdx W w x := by
  unfold sampleIdx
  rw [resizeIdx_round hw hW]

/-- If the working image differs from the source only by holding the
pixelated value on some region, then pixelating the working image gives
the same result as pixelating the source: nearest-neighbour downsampling
only reads sampled pixels, and those are fixed points of the cycle. -/
theorem pixelate_agree {α : Type} {W H k : Nat} (hW : 0 < W / k) (hH : 0 < H / k)
    {img acc : Nat → Nat → α} {c : Nat → Nat → Bool}
    (h : ∀ x y, acc x y = if c x y then pixelate W H k img x y else img x y) :
    pixelate W H k acc = pixelate W H k img := by
  funext x y
  show acc (sampleIdx W (W / k) x) (sampleIdx H (H / k) y) =
    img (sampleIdx W (W / k) x) (sampleIdx H (H / k) y)
  rw [h]
  split
  · show img (sampleIdx W (W / k) (sampleIdx W (W / k) x))
        (sampleIdx H (H / k) (sampleIdx H (H / k) y)) = _
    rw [sampleIdx_idem hW (Nat.div_le_self W k),
      sampleIdx_idem hH (Nat.div_le_self H k)]
  · rfl

theorem composite_invariant {α : Type} {W H k : Nat} (m : Nat → Nat → Bool)
    (img : Nat → Nat → α) (x y : Nat) :
    composite W H k m img x y = if m x y then pixelate W H k img x y else img x y := rfl

/-- C5 core: compositing twice with the same mask changes nothing beyond
the first application. -/
theorem composite_idem {α : Type} {W H k : Nat} (hW : 0 < W / k) (hH : 0 < H / k)
    (m : Nat → Nat → Bool) (img : Nat → Nat → α) :
    composite W H k m (composite W H k m img) = composite W H k m img := by
  have hpc : pixelate W H k (composite W H k m img) = pixelate W H k img :=
    pixelate_agree hW hH (composite_invariant m img)
  funext x y
  have h1 : composite W H k m (composite W H k m img) x y =
      if m x y then pixelate W H k (composite W H k m img) x y
      else composite W H k m img x y := rfl
  rw [h1, hpc]
  by_cases hm : m x y = true
  · simp [composite_invariant, hm]
  · simp [composite_invariant, hm]

/-! ## Per-variant compositing loop (`Segmenter._generate_combinations`)

For bitmask `i` the source walks the digits of `format(i, f"0{n}b")` in
order and, for each `'1'` digit at position `j`, composites keyword `j`'s
mask onto the *working* image (`result_image`), which already carries the
pixelation of the lower-position active bits. -/

/-- The all-false mask, used as the (never reached) out-of-range default. -/
def emptyMask : Nat → Nat → Bool := fun _ _ => false

/-- The composited image for bitmask `i` over the accepted masks, folding
the compositor over the binary digits exactly as the source loop does. -/
def generate_combination {α : Type} (W H k : Nat) (masks : List (Nat → Nat → Bool))
    (i : Nat) (img : Nat → Nat → α) : Nat → Nat → α :=
  (List.range masks.length).foldl
    (fun acc j =>
      if i.testBit (masks.length - 1 - j) then
        composite W H k (masks.getD j emptyMask) acc
      else acc)
    img

/-- Whether pixel `(x, y)` is covered by some mask whose bit is active in `i`. -/
def coveredBy (masks : List (Nat → Nat → Bool)) (i x y : Nat) : Bool :=
  (List.range masks.length).any
    (fun j => i.testBit (masks.length - 1 - j) && masks.getD j emptyMask x y)

theorem gen_fold_aux {α : Type} {W H k : Nat} (hW : 0 < W / k) (hH : 0 < H / k)
    (img : Nat → Nat → α) (mk : Nat → Nat → Nat → Bool) (act : Nat → Bool) :
    ∀ (l : List Nat) (acc : Nat → Nat → α) (c : Nat → Nat → Bool),
      (∀ x y, acc x y = if c x y then pixelate W H k img x y else img x y) →
      ∀ x y,
        (l.foldl (fun a j => if act j then composite W H k (mk j) a else a) acc) x y =
          if (c x y || l.any (fun j => act j && mk j x y)) then
            pixelate W H k img x y
          else img x y := by
  intro l
  induction l with
  | nil =>
    intro acc c hinv x y
    simpa using hinv x y
  | cons j rest ih =>
    intro acc c hinv x y
    rw [List.foldl_cons]
    by_cases ha : act j = true
    · rw [if_pos ha]
      have hinv' : ∀ x y,
          composite W H k (mk j) acc x y =
            if (fun x y => c x y || mk j x y) x y then pixelate W H k img x y
            else img x y := by
        intro x y
        rw [composite_invariant]
        rw [pixelate_agree hW hH hinv]
        rw [hinv x y]
        cases hc : c x y <;> cases hmj : mk j x y <;> simp [hc, hmj]
      rw [ih (composite W H k (mk j) acc) _ hinv' x y]
      have hcond : ((c x y || mk j x y) ||
            rest.any (fun j => act j && mk j x y)) =
          (c x y || (j :: rest).any (fun j => act j && mk j x y)) := by
        simp [ha, Bool.or_assoc]
      rw [hcond]
    · rw [if_neg ha]
      rw [ih acc c hinv x y]
      have hcond : (c x y || rest.any (fun j => act j && mk j x y)) =
          (c x y || (j :: rest).any (fun j => act j && mk j x y)) := by
        have ha' : act j = false := by
          cases hv : act j
          · rfl
          · exact absurd hv ha
        simp [ha']
      rw [hcond]

/-- Master characterisation of one variant: because sampled source pixels
are fixed points of the nearest-neighbour cycle, every pixel covered by an
active mask carries the pixelation of the *original* frame, and every
other pixel is untouched. -/
theorem generate_combination_spec {α : Type} {W H k : Nat}
    (hW : 0 < W / k) (hH : 0 < H / k) (masks : List (Nat → Nat → Bool))
    (i : Nat) (img : Nat → Nat → α) (x y : Nat) :
    generate_combination W H k masks i img x y =
      if coveredBy masks i x y then pixelate W H k img x y else img x y := by
  unfold generate_combination coveredBy
  rw [gen_fold_aux hW hH img (fun j => masks.getD j emptyMask)
    (fun j => i.testBit (masks.length - 1 - j)) (List.range masks.length)
    img (fun _ _ => false) (fun x y => rfl) x y]
  simp

/-- Concrete witness mask for evaluation theorems. -/
def witnessMask : Nat → Nat → Bool := fun x y => decide (x + y = 10)

/-- Concrete witness frame for evaluation theorems. -/
def witnessImg : Nat → Nat → Nat := fun x y => 3 * x + y

/-- C5: the pixelation compositor is a pure function of `(frame, mask, k)`
— in this embedding `composite` is a function, so identical inputs give
identical output definitionally — and applying it a second time with the
same mask changes nothing beyond the first application (stability, not
cumulative blur).  The hypotheses `0 < W / k` and `0 < H / k` restrict to
the dimensions on which the source's PIL resize is defined. -/
theorem compositor_deterministic_and_stable {α : Type} (W H k : Nat)
    (m : Nat → Nat → Bool) (img : Nat → Nat → α)
    (hW : 0 < W / k) (hH : 0 < H / k) :
    composite W H k m (composite W H k m img) = composite W H k m img :=
  composite_idem hW hH m img

theorem compositor_deterministic_and_stable_witness :
    0 < 20 / 20 ∧ 0 < 20 / 20 ∧
      composite 20 20 20 witnessMask (composite 20 20 20 witnessMask witnessImg) =
        composite 20 20 20 witnessMask witnessImg :=
  ⟨by decide, by decide,
    compositor_deterministic_and_stable 20 20 20 witnessMask witnessImg
      (by decide) (by decide)⟩

theorem generate_combination_zero {α : Type} (W H k : Nat)
    (masks : List (Nat → Nat → Bool)) (img : Nat → Nat → α) :
    generate_combination W H k masks 0 img = img := by
  unfold generate_combination
  have hfold : ∀ (l : List Nat) (acc : Nat → Nat → α),
      l.foldl
        (fun a j =>
          if (0 : Nat).testBit (masks.length - 1 - j) then
            composite W H k (masks.getD j emptyMask) a
          else a) acc = acc := by
    intro l
    induction l with
    | nil => intro acc; rfl
    | cons j rest ih =>
      intro acc
      rw [List.foldl_cons, if_neg (by simp [Nat.zero_testBit])]
      exact ih acc
  exact hfold _ img

/-- C9 (amended): within a variant, active bits are composited
sequentially onto the working image, but sampled source pixels are fixed
points of the nearest-neighbour down/up cycle, so earlier compositing
never changes the pixels later steps sample: under keyword `j`'s mask a
multi-bit variant carries exactly the pixels of the single-bit variant
for `j`. -/
theorem multi_bit_matches_single_bit {α : Type} (W H k : Nat)
    (masks : List (Nat → Nat → Bool)) (i j x y : Nat) (img : Nat → Nat → α)
    (hW : 0 < W / k) (hH : 0 < H / k) (hj : j < masks.length)
    (hbit : i.testBit (masks.length - 1 - j) = true)
    (hm : masks.getD j emptyMask x y = true) :
    generate_combination W H k masks i img x y =
      generate_combination W H k masks (2 ^ (masks.length - 1 - j)) img x y := by
  rw [generate_combination_spec hW hH, generate_combination_spec hW hH]
  have h1 : coveredBy masks i x y = true := by
    unfold coveredBy
    rw [List.any_eq_true]
    exact ⟨j, List.mem_range.mpr hj, by rw [hbit, hm]; rfl⟩
  have h2 : coveredBy masks (2 ^ (masks.length - 1 - j)) x y = true := by
    unfold coveredBy
    rw [List.any_eq_true]
    refine ⟨j, List.mem_range.mpr hj, ?_⟩
    rw [Nat.testBit_two_pow_self, hm]
    rfl
  rw [h1, h2]

def wMask0 : Nat → Nat → Bool := fun x y => decide (x = 10 ∧ y = 10)

def wMask1 : Nat → Nat → Bool := fun _ _ => true

theorem multi_bit_matches_single_bit_witness :
    0 < 20 / 20 ∧ 1 < [wMask0, wMask1].length ∧
      Nat.testBit 3 ([wMask0, wMask1].length - 1 - 1) = true ∧
      [wMask0, wMask1].getD 1 emptyMask 0 0 = true ∧
      generate_combination 20 20 20 [wMask0, wMask1] 3 witnessImg 0 0 =
        generate_combination 20 20 20 [wMask0, wMask1]
          (2 ^ ([wMask0, wMask1].length - 1 - 1)) witnessImg 0 0 :=
  ⟨by decide, by decide, by decide, by decide,
    multi_bit_matches_single_bit 20 20 20 [wMask0, wMask1] 3 1 0 0 witnessImg
      (by decide) (by decide) (by decide) (by decide) (by decide)⟩

/-- Concrete frame for the C9 counterexample: the sampled source pixel
`(10, 10)` of a 20-wide, 20-high frame at pixelation factor 20 holds the
value 5. -/
def cImg : Nat → Nat → Nat := fun x y => if x = 10 ∧ y = 10 then 5 else x + 2 * y

/-- Mask of keyword 0: it covers the sampled pixel `(10, 10)`, so its
compositing step rewrites exactly the region the claim says later steps
downsample differently. -/
def cMask0 : Nat → Nat → Bool := fun x y => decide (x = 10 ∧ y = 10)

/-- Mask of keyword 1: it covers `(0, 0)`. -/
def cMask1 : Nat → Nat → Bool := fun x y => decide (x = 0 ∧ y = 0)

/-- C9 counterexample: the claim predicts the pixels written under mask 1
can differ between the both-bits variant (`i = 3`, mask 0 composited
first onto the working image) and the single-bit variant (`i = 1`).  At
exactly the configuration that would produce such a difference — mask 0
covering the unique sampled source pixel of the 20×20 frame at the
source's fixed factor 20, and the pixel under mask 1 sampling it — the
two variants nevertheless write the same pixel under mask 1 (both the
source's sampled value 5): the claimed difference does not occur. -/
theorem multi_bit_never_differs :
    cMask1 0 0 = true ∧
      generate_combination 20 20 20 [cMask0, cMask1] 3 cImg 0 0 =
        generate_combination 20 20 20 [cMask0, cMask1] 1 cImg 0 0 ∧
      generate_combination 20 20 20 [cMask0, cMask1] 3 cImg 0 0 = 5 := by
  refine ⟨by decide, ?_, ?_⟩ <;> decide

/-! ## Video per-frame combination filing
(`VideoSegmenter._generate_combinations`, lines 657-744)

`video_segments` maps each accepted keyword (in order) to a partial map
`frame_idx -> obj_id -> mask`; both lookups can fail and the source then
`continue`s, skipping both the compositing step *and* the
`blurred_indices.append(j)`.  The combination key is afterwards rebuilt
from `blurred_indices`, and the composited frame is appended to the
per-key frame list of a dict preserving insertion order. -/

/-- One frame, one bitmask: walk the binary digits, composite each active
mask that is present for this frame, and record the indices that were
actually blurred (the source's `blurred_indices`). -/
def video_frame_variant {α : Type} (W H k : Nat)
    (segments : List (Nat → Option (Nat → Option (Nat → Nat → Bool))))
    (i frameIdx : Nat) (frame : Nat → Nat → α) :
    (Nat → Nat → α) × List Nat :=
  (List.range segments.length).foldl
    (fun acc j =>
      if i.testBit (segments.length - 1 - j) then
        match segments.getD j (fun _ => none) frameIdx with
        | none => acc
        | some objs =>
          match objs (j + 1) with
          | none => acc
          | some mask => (composite W H k mask acc.1, acc.2 ++ [j])
      else acc)
    (frame, [])

/-- The combination key the source rebuilds from `blurred_indices`. -/
def key_from_blurred (n : Nat) (blurred : List Nat) : List Char :=
  joinParts ((List.range n).map (fun j => partChars j (blurred.contains j)))

/-- Append a frame to the key's list in an insertion-ordered dict,
creating the entry if absent (Python dict semantics). -/
def append_combination {α : Type} (dict : List (List Char × List α))
    (key : List Char) (v : α) : List (List Char × List α) :=
  if dict.any (fun p => p.1 == key) then
    dict.map (fun p => if p.1 == key then (p.1, p.2 ++ [v]) else p)
  else dict ++ [(key, [v])]

/-- The full `combination_frames` dict: outer loop over frames (in
extraction order), inner loop over bitmasks `0 .. 2^n - 1`. -/
def generate_video_combinations {α : Type} (W H k : Nat)
    (segments : List (Nat → Option (Nat → Option (Nat → Nat → Bool))))
    (frames : List (Nat → Nat → α)) : List (List Char × List (Nat → Nat → α)) :=
  frames.enum.foldl
    (fun dict p =>
      (List.range (2 ^ segments.length)).foldl
        (fun dict i =>
          let v := video_frame_variant W H k segments i p.1 p.2
          append_combination dict (key_from_blurred segments.length v.2) v.1)
        dict)
    []

/-- One accepted keyword whose propagated mask exists for frame 0 (object
id 1) but is deliberately missing for frame 1. -/
def exSegments : List (Nat → Option (Nat → Option (Nat → Nat → Bool))) :=
  [fun frameIdx =>
    if frameIdx = 0 then
      some (fun objId => if objId = 1 then some (fun _ _ => true) else none)
    else none]

/-- Two readable extracted frames. -/
def exFrames : List (Nat → Nat → Nat) := [fun _ _ => 0, fun _ _ => 1]

/-- C1: evaluating the video generator on two frames and one accepted
keyword whose mask is missing for frame 1 only.  Generation does not
crash, but frame 1's `i = 1` variant is filed under key `"0"` (rebuilt
from the emptied `blurred_indices`) instead of `"0blur"`: artifact `"0"`
collects 3 frames and artifact `"0blur"` only 1, while 2 frames were
extracted — contradicting the claimed per-artifact frame count and the
claimed filing under the key of the requested bitmask. -/
theorem video_missing_mask_misfiles :
    exFrames.length = 2 ∧
      (generate_video_combinations 1 1 1 exSegments exFrames).map
          (fun p => (p.1, p.2.length)) =
        [(keyChars 1 0, 3), (keyChars 1 1, 1)] := by
  constructor
  · rfl
  · rfl

/-- C8: the bitmask-0 variant reproduces the source exactly: in image
mode the composited image is the unmodified source, and in video mode
every frame's variant is the unmodified extracted frame, recorded with an
empty `blurred_indices` whose rebuilt key is the key of bitmask 0. -/
theorem identity_variant {α : Type} (W H k : Nat)
    (masks : List (Nat → Nat → Bool))
    (segments : List (Nat → Option (Nat → Option (Nat → Nat → Bool))))
    (img frame : Nat → Nat → α) (frameIdx : Nat) :
    generate_combination W H k masks 0 img = img ∧
      video_frame_variant W H k segments 0 frameIdx frame = (frame, []) ∧
      key_from_blurred segments.length [] = keyChars segments.length 0 := by
  refine ⟨generate_combination_zero W H k masks img, ?_, ?_⟩
  · unfold video_frame_variant
    have hfold : ∀ (l : List Nat) (acc : (Nat → Nat → α) × List Nat),
        l.foldl
          (fun acc j =>
            if (0 : Nat).testBit (segments.length - 1 - j) then
              match segments.getD j (fun _ => none) frameIdx with
              | none => acc
              | some objs =>
                match objs (j + 1) with
                | none => acc
                | some mask => (composite W H k mask acc.1, acc.2 ++ [j])
            else acc) acc = acc := by
      intro l
      induction l with
      | nil => intro acc; rfl
      | cons j rest ih =>
        intro acc
        rw [List.foldl_cons, if_neg (by simp [Nat.zero_testBit])]
        exact ih acc
    exact hfold _ _
  · unfold key_from_blurred keyChars keyParts
    congr 1
    apply List.map_congr_left
    intro j _
    simp [Nat.zero_testBit]

/-! ## Metadata files (`_save_metadata`, identical in both classes)

The source writes `metadata.json` as `{i: keyword}` over the accepted
keywords in acquisition order — `json.dump` renders the integer keys as
their decimal strings — and `keywords.json` as the reversed dict
`{keyword: i}`. -/

/-- Decimal string of a natural number, as `json.dump` renders an
integer dict key. -/
def decStr (n : Nat) : String := String.mk (natChars n)

theorem decStr_injective {m n : Nat} (h : decStr m = decStr n) : m = n :=
  natChars_injective (by
    have := congrArg String.data h
    simpa [decStr] using this)

/-- `metadata.json` as written to disk: decimal bit index to keyword. -/
def metadata_json (kws : List String) : List (String × String) :=
  kws.enum.map (fun p => (decStr p.1, p.2))

/-- `keywords.json` as written to disk: keyword to numeric bit index. -/
def keywords_json (kws : List String) : List (String × Nat) :=
  kws.enum.map (fun p => (p.2, p.1))

theorem lookup_keywords_aux :
    ∀ (kws : List String), kws.Nodup →
      ∀ (s i : Nat) (h : i < kws.length),
        List.lookup (kws.get ⟨i, h⟩)
            ((kws.enumFrom s).map (fun p => (p.2, p.1))) = some (s + i) := by
  intro kws
  induction kws with
  | nil => intro _ s i h; exact absurd h (Nat.not_lt_zero i)
  | cons a as ih =>
    intro hnd s i h
    rcases List.nodup_cons.mp hnd with ⟨hna, hnd'⟩
    cases i with
    | zero => simp [List.enumFrom_cons, List.lookup_cons]
    | succ i' =>
      have hget : (a :: as).get ⟨i' + 1, h⟩ = as.get ⟨i', by simpa using h⟩ := rfl
      rw [hget, List.enumFrom_cons, List.map_cons, List.lookup_cons]
      have hne : (as.get ⟨i', by simpa using h⟩ == a) = false := by
        rw [beq_eq_false_iff_ne]
        intro heq
        exact hna (heq ▸ List.get_mem as i' (by simpa using h))
      rw [hne]
      simp only [cond_false]
      rw [ih hnd' (s + 1) i' (by simpa using h)]
      congr 1
      omega

theorem lookup_metadata_aux :
    ∀ (kws : List String) (s i : Nat) (h : i < kws.length),
      List.lookup (decStr (s + i))
          ((kws.enumFrom s).map (fun p => (decStr p.1, p.2))) =
        some (kws.get ⟨i, h⟩) := by
  intro kws
  induction kws with
  | nil => intro s i h; exact absurd h (Nat.not_lt_zero i)
  | cons a as ih =>
    intro s i h
    cases i with
    | zero => simp [List.enumFrom_cons, List.lookup_cons]
    | succ i' =>
      rw [List.enumFrom_cons, List.map_cons, List.lookup_cons]
      have hne : (decStr (s + (i' + 1)) == decStr s) = false := by
        rw [beq_eq_false_iff_ne]
        intro heq
        have := decStr_injective heq
        omega
      rw [hne]
      simp only [cond_false]
      have harg : s + (i' + 1) = (s + 1) + i' := by omega
      rw [harg, ih (s + 1) i' (by simpa using h)]
      rfl

/-- C6: `keywords.json` is the exact inverse of `metadata.json`:
composing the two persisted mappings is the identity on every accepted
keyword, and the forward file is reconstructed exactly by inverting the
inverse file. -/
theorem metadata_keywords_roundtrip (kws : List String) (hnd : kws.Nodup) :
    (∀ kw ∈ kws,
        (List.lookup kw (keywords_json kws)).bind
            (fun i => List.lookup (decStr i) (metadata_json kws)) = some kw) ∧
      metadata_json kws = (keywords_json kws).map (fun p => (decStr p.2, p.1)) := by
  constructor
  · intro kw hkw
    obtain ⟨⟨i, hi⟩, hget⟩ := List.mem_iff_get.mp hkw
    have h1 : List.lookup kw (keywords_json kws) = some i := by
      rw [← hget]
      have hres := lookup_keywords_aux kws hnd 0 i hi
      rw [Nat.zero_add] at hres
      exact hres
    rw [h1]
    show List.lookup (decStr i) (metadata_json kws) = some kw
    have h2 := lookup_metadata_aux kws 0 i hi
    rw [Nat.zero_add] at h2
    rw [← hget]
    exact h2
  · unfold metadata_json keywords_json
    rw [List.map_map]
    rfl

theorem metadata_keywords_roundtrip_witness :
    (["a", "b"] : List String).Nodup ∧
      (List.lookup "a" (keywords_json ["a", "b"])).bind
          (fun i => List.lookup (decStr i) (metadata_json ["a", "b"])) =
        some "a" ∧
      metadata_json ["a", "b"] =
        (keywords_json ["a", "b"]).map (fun p => (decStr p.2, p.1)) :=
  ⟨by decide,
    (metadata_keywords_roundtrip ["a", "b"] (by decide)).1 "a" (by decide),
    (metadata_keywords_roundtrip ["a", "b"] (by decide)).2⟩

/-! ## Video encoding fallback (`write_video`, lines 64-119)

The source tries `('avc1', '.mp4')`, `('mp4v', '.mp4')`, `('XVID',
'.avi')` in order.  A candidate can raise, fail to open its writer, or
write a file of some size; it succeeds iff the written file exists and is
non-empty, and the first success returns.  If no candidate succeeds a
`RuntimeError` is raised.  An empty frame list returns before any
attempt.  Codec and filesystem behaviour is modelled as an outcome per
candidate. -/

inductive WriteAttempt where
  | raisesErr
  | notOpened
  | writes (size : Nat)
deriving DecidableEq

inductive WriteResult where
  | noFrames
  | wrote (c : String × String)
  | encodingFailed
deriving DecidableEq

/-- The fixed ordered codec fallback chain of the source. -/
def codecs : List (String × String) :=
  [("avc1", ".mp4"), ("mp4v", ".mp4"), ("XVID", ".avi")]

/-- A candidate satisfies the source's check iff it wrote a file that
exists and is non-empty. -/
def attemptGood : WriteAttempt → Bool
  | .writes size => decide (0 < size)
  | _ => false

/-- The fallback loop: `continue` on a raise, an unopened writer, or an
empty file; return on the first candidate whose file is non-empty. -/
def tryCodecs (env : String × String → WriteAttempt) :
    List (String × String) → Option (String × String)
  | [] => none
  | c :: rest =>
    match env c with
    | .writes size => if 0 < size then some c else tryCodecs env rest
    | _ => tryCodecs env rest

/-- `write_video`: early return on an empty frame list, else the codec
loop; raises (`encodingFailed`) iff every candidate fails. -/
def write_video {φ : Type} (frames : List φ)
    (env : String × String → WriteAttempt) : WriteResult :=
  if frames.isEmpty then .noFrames
  else
    match tryCodecs env codecs with
    | some c => .wrote c
    | none => .encodingFailed

/-- The save loop of `VideoSegmenter._generate_combinations`: each
combination is attempted independently, failures are caught and reported,
and the loop continues with the remaining combinations. -/
def save_combinations {φ : Type} (combos : List (List Char × List φ))
    (env : List Char → String × String → WriteAttempt) :
    List (List Char × WriteResult) :=
  combos.map (fun p => (p.1, write_video p.2 (env p.1)))

theorem tryCodecs_eq_find {env : String × String → WriteAttempt} :
    ∀ l : List (String × String),
      tryCodecs env l = l.find? (fun c => attemptGood (env c)) := by
  intro l
  induction l with
  | nil => rfl
  | cons c rest ih =>
    rw [tryCodecs, List.find?]
    cases henv : env c with
    | writes size =>
      show (if 0 < size then some c else tryCodecs env rest) =
          (match attemptGood (WriteAttempt.writes size) with
          | true => some c
          | false => List.find? (fun c => attemptGood (env c)) rest)
      by_cases hs : 0 < size
      · rw [if_pos hs,
          show attemptGood (WriteAttempt.writes size) = true by simp [attemptGood, hs]]
      · rw [if_neg hs,
          show attemptGood (WriteAttempt.writes size) = false by simp [attemptGood, hs]]
        exact ih
    | raisesErr => exact ih
    | notOpened => exact ih

/-- C7: encoding tries the fixed ordered candidate list; it succeeds iff
some candidate's file exists and is non-empty, the first such candidate
winning (`find?` over the chain); if all candidates fail only that
combination's artifact errors, and the save loop still processes every
combination (keys and count preserved whatever the per-combination
outcomes are). -/
theorem write_video_fallback {φ : Type} :
    codecs = [("avc1", ".mp4"), ("mp4v", ".mp4"), ("XVID", ".avi")] ∧
      (∀ (frames : List φ) (env : String × String → WriteAttempt),
        write_video frames env =
          if frames.isEmpty then WriteResult.noFrames
          else
            (codecs.find? (fun c => attemptGood (env c))).elim
              WriteResult.encodingFailed WriteResult.wrote) ∧
      (∀ (combos : List (List Char × List φ))
          (env : List Char → String × String → WriteAttempt),
        (save_combinations combos env).map Prod.fst = combos.map Prod.fst ∧
          (save_combinations combos env).length = combos.length) := by
  refine ⟨rfl, ?_, ?_⟩
  · intro frames env
    unfold write_video
    rw [tryCodecs_eq_find]
    cases codecs.find? (fun c => attemptGood (env c)) <;> rfl
  · intro combos env
    constructor
    · unfold save_combinations
      rw [List.map_map]
      rfl
    · unfold save_combinations
      rw [List.length_map]

/-! ## Image artifact files and the returned mapping
(`Segmenter._generate_combinations` lines 356-368, `process_image`
lines 403-422)

Each combination is saved as `<key>.webp`; on a WEBP encode failure the
source falls back to `<key>.png` (which may itself fail).  Afterwards
`process_image` builds the returned mapping by globbing `*.webp` only. -/

inductive SaveOutcome where
  | webpOk
  | webpFailPngOk
  | bothFail
deriving DecidableEq

def webpExt : List Char := ['.', 'w', 'e', 'b', 'p']

def pngExt : List Char := ['.', 'p', 'n', 'g']

/-- Does the first list begin with the second? -/
def beginsWith : List Char → List Char → Bool
  | [], _ => true
  | _ :: _, [] => false
  | a :: as, b :: bs => a == b && beginsWith as bs

/-- `glob`-style suffix test: does the filename end with the pattern? -/
def hasSuffix (l s : List Char) : Bool := beginsWith s.reverse l.reverse

/-- The files present in the combinations directory after the loop, in
generation order, given each combination's save outcome. -/
def combination_files (n : Nat) (outcome : Nat → SaveOutcome) : List (List Char) :=
  (List.range (2 ^ n)).flatMap
    (fun i =>
      match outcome i with
      | SaveOutcome.webpOk => [keyChars n i ++ webpExt]
      | SaveOutcome.webpFailPngOk => [keyChars n i ++ pngExt]
      | SaveOutcome.bothFail => [])

/-- The keys of the mapping `process_image` returns: only the `*.webp`
files of the combinations directory. -/
def pixelation_map_keys (n : Nat) (outcome : Nat → SaveOutcome) : List (List Char) :=
  (combination_files n outcome).filter (fun f => hasSuffix f webpExt)

theorem beginsWith_append (p t : List Char) : beginsWith p (p ++ t) = true := by
  induction p with
  | nil => rfl
  | cons a as ih => simp [beginsWith, ih]

theorem hasSuffix_append (k s : List Char) : hasSuffix (k ++ s) s = true := by
  unfold hasSuffix
  rw [List.reverse_append]
  exact beginsWith_append s.reverse k.reverse

theorem hasSuffix_png_webp (k : List Char) : hasSuffix (k ++ pngExt) webpExt = false := by
  unfold hasSuffix
  rw [List.reverse_append]
  rfl

theorem filter_flatMap_files {p : List Char → Bool} {f : Nat → List (List Char)} :
    ∀ l : List Nat, (l.flatMap f).filter p = l.flatMap (fun i => (f i).filter p) := by
  intro l
  induction l with
  | nil => rfl
  | cons a as ih =>
    rw [List.flatMap_cons, List.flatMap_cons, List.filter_append, ih]

/-- C10: the returned mapping's keys are exactly the `.webp` files in the
combinations directory; a PNG fallback artifact exists on disk but is
absent from the returned mapping. -/
theorem pixelation_map_webp_only (n : Nat) (outcome : Nat → SaveOutcome) :
    pixelation_map_keys n outcome =
        (List.range (2 ^ n)).flatMap
          (fun i =>
            match outcome i with
            | SaveOutcome.webpOk => [keyChars n i ++ webpExt]
            | _ => []) ∧
      ∀ i, i < 2 ^ n → outcome i = SaveOutcome.webpFailPngOk →
        (keyChars n i ++ pngExt) ∈ combination_files n outcome ∧
          (keyChars n i ++ pngExt) ∉ pixelation_map_keys n outcome := by
  constructor
  · unfold pixelation_map_keys combination_files
    rw [filter_flatMap_files]
    have hcong : ∀ g h : Nat → List (List Char),
        (∀ i ∈ List.range (2 ^ n), g i = h i) →
        (List.range (2 ^ n)).flatMap g = (List.range (2 ^ n)).flatMap h := by
      intro g h hgh
      unfold List.flatMap
      rw [List.map_congr_left hgh]
    apply hcong
    intro i _
    cases houtcome : outcome i with
    | webpOk => simp [List.filter_cons, hasSuffix_append]
    | webpFailPngOk => simp [List.filter_cons, hasSuffix_png_webp]
    | bothFail => rfl
  · intro i hi houtcome
    constructor
    · unfold combination_files
      rw [List.mem_flatMap]
      exact ⟨i, List.mem_range.mpr hi, by rw [houtcome]; simp⟩
    · intro hmem
      unfold pixelation_map_keys at hmem
      have := (List.mem_filter.mp hmem).2
      rw [hasSuffix_png_webp] at this
      exact Bool.false_ne_true this

/-- A directory state where combination 1's WEBP encode failed and the
PNG fallback succeeded. -/
def exOutcome : Nat → SaveOutcome := fun i =>
  if i = 1 then SaveOutcome.webpFailPngOk else SaveOutcome.webpOk

theorem pixelation_map_webp_only_witness :
    (1 < 2 ^ 1 ∧ exOutcome 1 = SaveOutcome.webpFailPngOk) ∧
      (keyChars 1 1 ++ pngExt) ∈ combination_files 1 exOutcome ∧
      (keyChars 1 1 ++ pngExt) ∉ pixelation_map_keys 1 exOutcome :=
  ⟨⟨by decide, by decide⟩,
    ((pixelation_map_webp_only 1 exOutcome).2 1 (by decide) (by decide)).1,
    ((pixelation_map_webp_only 1 exOutcome).2 1 (by decide) (by decide)).2⟩

/-! ## Interactive mask-acquisition sessions (`_process_keyword`)

Image mode (lines 176-286): the closures hold `points` and `mask`;
`on_reset` assigns `points = []`, `mask = None`.  The image predictor is
queried statelessly with the full accumulated point list on each click.
Previously accepted masks live in `self.masks` and are never touched by
the handlers of a later keyword's session.

Video mode (lines 494-639): the closures hold `points` and `masks`, but
each click also calls `predictor.add_new_points_or_box` on the shared
`inference_state` (object id fixed for the keyword, frame 0);
`on_reset` assigns only `points = []`, `masks = None` — it never calls
`reset_state`, which the source invokes once before the first keyword. -/

structure ImageSession (μ : Type) where
  points : List (Int × Int)
  candidate : Option μ

/-- The state a keyword's image session starts in. -/
def image_initial {μ : Type} : ImageSession μ := ⟨[], none⟩

/-- `onclick`: append the point and re-predict from the full list. -/
def image_onclick {μ : Type} (predict : List (Int × Int) → μ)
    (pt : Int × Int) (s : ImageSession μ) : ImageSession μ :=
  { points := s.points ++ [pt], candidate := some (predict (s.points ++ [pt])) }

/-- `on_reset` of the image session. -/
def image_on_reset {μ : Type} (_ : ImageSession μ) : ImageSession μ :=
  { points := [], candidate := none }

/-- The image segmenter's visible state during one session: the accepted
mask store `self.masks` plus the session closures.  `on_reset` touches
only the closures. -/
def image_handler_reset {μ : Type} (st : List (String × μ) × ImageSession μ) :
    List (String × μ) × ImageSession μ :=
  (st.1, image_on_reset st.2)

structure VideoSession (μ : Type) where
  points : List (Int × Int)
  candidate : Option μ
  inference : List (Nat × Nat × List (Int × Int))

/-- The state a keyword's video session starts in (inference log as left
by the previous keywords). -/
def video_initial {μ : Type} : VideoSession μ := ⟨[], none, []⟩

/-- Modelled from the spec: the SAM2 video predictor is an external
capability and its `add_new_points_or_box` is stateful, accumulating the
submitted points per object and frame; the
`inference` field logs each call as `(frame_idx, obj_id, points)`.
`onclick` appends the point and submits the full accumulated list for
frame 0 and the keyword's object id, as the source does. -/
def video_onclick {μ : Type} (vpredict : List (Int × Int) → μ) (objId : Nat)
    (pt : Int × Int) (s : VideoSession μ) : VideoSession μ :=
  { points := s.points ++ [pt]
    candidate := some (vpredict (s.points ++ [pt]))
    inference := s.inference ++ [(0, objId, s.points ++ [pt])] }

/-- `on_reset` of the video session: clears `points` and `masks` only;
`reset_state` is not called, so the inference state persists. -/
def video_on_reset {μ : Type} (s : VideoSession μ) : VideoSession μ :=
  { points := [], candidate := none, inference := s.inference }

/-- The video segmenter's visible state during one session. -/
def video_handler_reset {μ : Type} (st : List (String × μ) × VideoSession μ) :
    List (String × μ) × VideoSession μ :=
  (st.1, video_on_reset st.2)

/-- C4 (amended): a reset clears the accumulated point list and the
candidate mask and leaves every previously accepted keyword's stored
mask unchanged; in image mode this returns the session to exactly its
initial state, but in video mode the per-object adapter inference state
accumulated for the keyword is NOT cleared by a reset. -/
theorem reset_clears_session {μ : Type} :
    (∀ st : List (String × μ) × ImageSession μ,
        image_handler_reset st = (st.1, image_initial)) ∧
      (∀ st : List (String × μ) × VideoSession μ,
        video_handler_reset st =
          (st.1,
            { points := [], candidate := none,
              inference := st.2.inference })) := by
  exact ⟨fun st => rfl, fun st => rfl⟩

/-- C4 counterexample: after a single click in a video session, a reset
leaves the adapter inference state different from the state the session
started in — the session is not returned to its initial state. -/
theorem video_reset_keeps_inference :
    (video_on_reset
          (video_onclick (fun _ => (0 : Nat)) 1 (1, 2) video_initial)).inference ≠
      (video_initial : VideoSession Nat).inference := by
  decide

/-! ## Command-line exit status (`process_image` lines 403-422, `main`
lines 802-841)

`Segmenter.__init__` raises `ValueError` when the image cannot be read;
`process_image` wraps everything in `try/except Exception`, prints the
error, and returns `{}`.  `main` exits 1 only when an exception escapes,
and performs no emptiness check on the returned mapping. -/

inductive LoadResult where
  | ok
  | loadFail
deriving DecidableEq

/-- `Segmenter.__init__`: `ValueError` iff the media cannot be loaded. -/
def segmenter_init (load : LoadResult) : Except String Unit :=
  match load with
  | LoadResult.loadFail => Except.error "Could not load image"
  | LoadResult.ok => Except.ok ()

/-- `process_image`: the catch-all swallows the exception and returns the
empty mapping. -/
def process_image (load : LoadResult) (combos : List String) :
    Except String (List String) :=
  match segmenter_init load with
  | Except.error _ => Except.ok []
  | Except.ok _ => Except.ok combos

/-- `main`: `sys.exit(1)` only on an escaping exception, else exit 0. -/
def main_exit_code (load : LoadResult) (combos : List String) : Nat :=
  match process_image load combos with
  | Except.error _ => 1
  | Except.ok _ => 0

/-- C3 evaluation: on a media load failure the exception is caught inside
`process_image`, which returns the empty mapping, and the program exits
0 — not non-zero; likewise an empty mapping (zero combinations produced)
exits 0. -/
theorem media_load_failure_exits_zero :
    ∀ combos : List String,
      process_image LoadResult.loadFail combos = Except.ok [] ∧
        main_exit_code LoadResult.loadFail combos = 0 ∧
        main_exit_code LoadResult.ok [] = 0 :=
  fun _ => ⟨rfl, rfl, rfl⟩
